import Mathlib

/-!
Verification of the weighted-median analytics of the embedding-comparison
dashboard (`src/embsuivi/gui/helpers.py` and `src/embsuivi/gui/app.py`).

Python floats are modelled as rationals (`ℚ`); a raised exception is
modelled as `none` in an `Option` result.  NumPy array operations used by
`weighted_median` (`np.argsort`, `np.cumsum`, `np.searchsorted`, fancy
indexing) are embedded as executable Lean functions over lists.
-/

namespace Embcompare

/-- `np.argsort(values)` returns a permutation of `[0, …, n-1)` that sorts
`values` ascending.  NumPy's default kind (quicksort) leaves the order of
equal values unspecified; this model fixes the stable choice: indices are
ordered by value first and by original position among equal values.  The
faithful transcription of NumPy's actual introsort is `npArgsort` below,
used to analyse tie behaviour. -/
def lexLe (v : List ℚ) (a b : Nat) : Prop :=
  v.getD a 0 < v.getD b 0 ∨ (v.getD a 0 = v.getD b 0 ∧ a ≤ b)

instance (v : List ℚ) : DecidableRel (lexLe v) := fun a b => by
  unfold lexLe; infer_instance

instance (v : List ℚ) : IsTotal Nat (lexLe v) := by
  constructor
  intro a b
  rcases lt_trichotomy (v.getD a 0) (v.getD b 0) with h | h | h
  · exact Or.inl (Or.inl h)
  · rcases Nat.le_total a b with hab | hab
    · exact Or.inl (Or.inr ⟨h, hab⟩)
    · exact Or.inr (Or.inr ⟨h.symm, hab⟩)
  · exact Or.inr (Or.inl h)

instance (v : List ℚ) : IsTrans Nat (lexLe v) := by
  constructor
  rintro a b c (hab | ⟨hab, hab'⟩) (hbc | ⟨hbc, hbc'⟩)
  · exact Or.inl (hab.trans hbc)
  · exact Or.inl (hbc ▸ hab)
  · exact Or.inl (hab ▸ hbc)
  · exact Or.inr ⟨hab.trans hbc, hab'.trans hbc'⟩

instance (v : List ℚ) : IsAntisymm Nat (lexLe v) := by
  constructor
  rintro a b (hab | ⟨hab, hab'⟩) (hba | ⟨hba, hba'⟩)
  · exact absurd hba (not_lt.mpr hab.le)
  · exact absurd hab (not_lt.mpr hba.le)
  · exact absurd hba (not_lt.mpr hab.le)
  · exact Nat.le_antisymm hab' hba'

/-- Model of `np.argsort(values)`: the stable sorting permutation of the
index range (see `lexLe`). -/
def argsort (v : List ℚ) : List Nat :=
  List.insertionSort (lexLe v) (List.range v.length)

/-- `np.cumsum(weights)`: running sums, same length as the input. -/
def cumsum : List ℚ → List ℚ
  | [] => []
  | x :: xs => x :: (cumsum xs).map (fun y => x + y)

/-- The binary search performed by `np.searchsorted(c, key)` with the
default `side='left'` (`npy_binsearch` in NumPy): returns the leftmost
insertion point of `key` into the sorted array `c`.  The interval shrinks
strictly at every step, so the interval width is enough fuel; recursion on
the fuel keeps the function kernel-reducible. -/
def binsearchGo (c : List ℚ) (key : ℚ) : Nat → Nat → Nat → Nat
  | 0, imin, _ => imin
  | fuel + 1, imin, imax =>
    if imin < imax then
      let imid := imin + (imax - imin) / 2
      if c.getD imid 0 < key then binsearchGo c key fuel (imid + 1) imax
      else binsearchGo c key fuel imin imid
    else imin

/-- See `binsearchGo`. -/
def binsearchLeft (c : List ℚ) (key : ℚ) (imin imax : Nat) : Nat :=
  binsearchGo c key (imax - imin) imin imax

/-- `np.searchsorted(c, key)` (`side='left'`). -/
def searchsorted (c : List ℚ) (key : ℚ) : Nat :=
  binsearchLeft c key 0 c.length

/-- Transcription of `weighted_median` (`helpers.py`, lines 204–207):

    def weighted_median(values, weights):
        i = np.argsort(values)
        c = np.cumsum(weights[i])
        return values[i[np.searchsorted(c, 0.5 * c[-1])]]

`weights[i]` is NumPy fancy indexing (fails when an index is out of
range), `c[-1]` fails on an empty array, and the final indexing fails when
the searchsorted position is out of range; each failure is `none`. -/
def weighted_median (values weights : List ℚ) : Option ℚ :=
  let i := argsort values
  match i.mapM (fun k => weights.get? k) with
  | none => none
  | some wperm =>
    let c := cumsum wperm
    match c.getLast? with
    | none => none
    | some clast =>
      let pos := searchsorted c (0.5 * clast)
      match i.get? pos with
      | none => none
      | some idx => values.get? idx

/-- The values of `values` read in the ascending order chosen by
`argsort`. -/
def sortedValues (v : List ℚ) : List ℚ :=
  (argsort v).map (fun a => v.getD a 0)

/-- The cumulative weight sums computed inside `weighted_median`:
the weights aligned to ascending value order, then summed. -/
def cumWeights (v w : List ℚ) : List ℚ :=
  cumsum ((argsort v).map (fun a => w.getD a 0))

/-! ### Basic facts about the embedded NumPy operations -/

theorem argsort_perm_range (v : List ℚ) : (argsort v).Perm (List.range v.length) :=
  List.perm_insertionSort _ _

theorem argsort_length (v : List ℚ) : (argsort v).length = v.length := by
  simpa using (argsort_perm_range v).length_eq

theorem argsort_sorted (v : List ℚ) : List.Sorted (lexLe v) (argsort v) :=
  List.sorted_insertionSort _ _

theorem mem_argsort_lt (v : List ℚ) {a : Nat} (h : a ∈ argsort v) : a < v.length := by
  have := (argsort_perm_range v).mem_iff.mp h
  simpa using this

theorem map_getD_range (v : List ℚ) :
    (List.range v.length).map (fun i => v.getD i 0) = v := by
  induction v with
  | nil => simp
  | cons x xs ih =>
    rw [List.length_cons, List.range_succ_eq_map, List.map_cons, List.map_map]
    have hmaps : (List.range xs.length).map ((fun i => (x :: xs).getD i 0) ∘ Nat.succ)
        = (List.range xs.length).map (fun i => xs.getD i 0) := by
      apply List.map_congr_left; intro a _; simp
    rw [hmaps, ih]
    simp

/-- The list of values read along `argsort v` is a rearrangement of `v`. -/
theorem sortedValues_perm (v : List ℚ) : (sortedValues v).Perm v := by
  have h := (argsort_perm_range v).map (fun a => v.getD a 0)
  rw [map_getD_range] at h
  exact h

theorem sortedValues_length (v : List ℚ) : (sortedValues v).length = v.length := by
  simpa using (sortedValues_perm v).length_eq

/-- The values read along `argsort v` are in ascending order. -/
theorem sortedValues_pairwise (v : List ℚ) :
    (sortedValues v).Pairwise (· ≤ ·) := by
  unfold sortedValues
  rw [List.pairwise_map]
  refine (argsort_sorted v).imp ?_
  rintro a b (h | ⟨h, _⟩)
  · exact h.le
  · exact h.le

theorem cumsum_length (l : List ℚ) : (cumsum l).length = l.length := by
  induction l with
  | nil => rfl
  | cons x xs ih => simp [cumsum, ih]

theorem cumsum_getD (l : List ℚ) (k : Nat) (hk : k < l.length) :
    (cumsum l).getD k 0 = (l.take (k + 1)).sum := by
  induction l generalizing k with
  | nil => simp at hk
  | cons x xs ih =>
    cases k with
    | zero => simp [cumsum]
    | succ k =>
      have hk' : k < xs.length := by simpa using hk
      have hlen : k < (cumsum xs).length := by rw [cumsum_length]; exact hk'
      simp only [cumsum, List.getD_cons_succ, List.take_succ_cons, List.sum_cons]
      rw [List.getD_eq_getElem _ _ (by simpa using hlen), List.getElem_map,
        ← List.getD_eq_getElem (cumsum xs) 0 hlen, ih k hk']

theorem getLast?_cons_ne_nil {α : Type} (a : α) {L : List α} (h : L ≠ []) :
    (a :: L).getLast? = L.getLast? := by
  cases L with
  | nil => exact absurd rfl h
  | cons b M => exact List.getLast?_cons_cons

theorem cumsum_ne_nil (l : List ℚ) (h : l ≠ []) : cumsum l ≠ [] := by
  intro hc
  have hlen := cumsum_length l
  rw [hc] at hlen
  exact h (List.eq_nil_of_length_eq_zero hlen.symm)

theorem cumsum_getLast? (l : List ℚ) (h : l ≠ []) :
    (cumsum l).getLast? = some l.sum := by
  induction l with
  | nil => exact absurd rfl h
  | cons x xs ih =>
    cases xs with
    | nil => simp [cumsum]
    | cons y ys =>
      have hmapne : (cumsum (y :: ys)).map (fun z => x + z) ≠ [] := by
        intro hc
        exact cumsum_ne_nil (y :: ys) (by simp) (List.map_eq_nil_iff.mp hc)
      rw [show cumsum (x :: y :: ys) = x :: (cumsum (y :: ys)).map (fun z => x + z) from rfl]
      rw [getLast?_cons_ne_nil _ hmapne, List.getLast?_map, ih (by simp)]
      simp [add_assoc]

/-- All entries of `cumsum l` are non-negative when all entries of `l` are. -/
theorem cumsum_nonneg (l : List ℚ) (h : ∀ x ∈ l, 0 ≤ x) :
    ∀ y ∈ cumsum l, 0 ≤ y := by
  induction l with
  | nil => simp [cumsum]
  | cons x xs ih =>
    intro y hy
    have hx : 0 ≤ x := h x (by simp)
    simp only [cumsum, List.mem_cons, List.mem_map] at hy
    rcases hy with rfl | ⟨z, hz, rfl⟩
    · exact hx
    · exact add_nonneg hx (ih (fun a ha => h a (by simp [ha])) z hz)

/-- `cumsum` of a list of non-negative entries is non-decreasing. -/
theorem cumsum_pairwise (l : List ℚ) (h : ∀ x ∈ l, 0 ≤ x) :
    (cumsum l).Pairwise (· ≤ ·) := by
  induction l with
  | nil => simp [cumsum]
  | cons x xs ih =>
    simp only [cumsum]
    refine List.pairwise_cons.mpr ⟨?_, ?_⟩
    · rintro b hb
      obtain ⟨z, hz, rfl⟩ := List.mem_map.mp hb
      have : 0 ≤ z := cumsum_nonneg xs (fun a ha => h a (by simp [ha])) z hz
      linarith
    · rw [List.pairwise_map]
      exact (ih (fun a ha => h a (by simp [ha]))).imp (by intro a b hab; linarith)

theorem pairwise_le_getD (c : List ℚ) (hs : c.Pairwise (· ≤ ·)) {i j : Nat}
    (hij : i ≤ j) (hj : j < c.length) : c.getD i 0 ≤ c.getD j 0 := by
  rcases Nat.eq_or_lt_of_le hij with rfl | hlt
  · exact le_refl _
  · have hi : i < c.length := lt_trans hlt hj
    rw [List.getD_eq_getElem _ _ hi, List.getD_eq_getElem _ _ hj]
    exact List.pairwise_iff_getElem.mp hs i j hi hj hlt

/-- Correctness of the embedded `searchsorted` binary search on a sorted
array: it returns the least position whose entry reaches `key`. -/
theorem binsearchGo_eq (c : List ℚ) (key : ℚ) (hs : c.Pairwise (· ≤ ·))
    (k : Nat) (hk : k < c.length) (hkey : key ≤ c.getD k 0)
    (hbefore : ∀ j, j < k → c.getD j 0 < key) :
    ∀ fuel imin imax, imax - imin ≤ fuel → imin ≤ k → k ≤ imax →
      imax ≤ c.length → binsearchGo c key fuel imin imax = k := by
  intro fuel
  induction fuel with
  | zero =>
    intro imin imax hfuel h1 h2 _
    have : imin = k := by omega
    simpa [binsearchGo] using this
  | succ fuel ih =>
    intro imin imax hfuel h1 h2 h3
    by_cases h : imin < imax
    · simp only [binsearchGo, if_pos h]
      by_cases hc : c.getD (imin + (imax - imin) / 2) 0 < key
      · rw [if_pos hc]
        have hmidk : imin + (imax - imin) / 2 < k := by
          by_contra hcon
          push_neg at hcon
          exact absurd (le_trans hkey
            (pairwise_le_getD c hs hcon (by omega))) (not_le.mpr hc)
        exact ih _ _ (by omega) (by omega) h2 h3
      · rw [if_neg hc]
        have hkmid : k ≤ imin + (imax - imin) / 2 := by
          by_contra hcon
          push_neg at hcon
          exact absurd (hbefore _ hcon) hc
        exact ih _ _ (by omega) h1 hkmid (by omega)
    · have : imin = k := by omega
      simpa [binsearchGo, if_neg h] using this

theorem searchsorted_eq (c : List ℚ) (key : ℚ) (hs : c.Pairwise (· ≤ ·))
    (k : Nat) (hk : k < c.length) (hkey : key ≤ c.getD k 0)
    (hbefore : ∀ j, j < k → c.getD j 0 < key) :
    searchsorted c key = k :=
  binsearchGo_eq c key hs k hk hkey hbefore _ 0 c.length
    (by omega) (Nat.zero_le k) hk.le (le_refl _)

/-- NumPy fancy indexing `w[is]` succeeds exactly on in-range indices. -/
theorem mapM_get?_of_lt (w : List ℚ) :
    ∀ is : List Nat, (∀ a ∈ is, a < w.length) →
      is.mapM (fun k => w.get? k) = some (is.map (fun a => w.getD a 0)) := by
  intro is
  induction is with
  | nil => intro _; rfl
  | cons a t ih =>
    intro h
    have ha : a < w.length := h a (by simp)
    have hget : w.get? a = some (w.getD a 0) := by
      rw [List.get?_eq_getElem?, List.getElem?_eq_getElem ha,
        List.getD_eq_getElem _ _ ha]
    rw [List.mapM_cons, hget, ih (fun b hb => h b (by simp [hb]))]
    rfl

theorem weights_perm (v w : List ℚ) (hlen : w.length = v.length) :
    ((argsort v).map (fun a => w.getD a 0)).Perm w := by
  have h := (argsort_perm_range v).map (fun a => w.getD a 0)
  rw [← hlen] at h
  rw [map_getD_range w] at h
  exact h

/-- Central characterization: if position `k` is the first position (in
ascending value order) whose cumulative weight reaches half the total
weight, then `weighted_median` returns the `k`-th smallest value. -/
theorem wm_eq_get (v w : List ℚ) (hne : v ≠ []) (hlen : w.length = v.length)
    (hw : ∀ x ∈ w, 0 ≤ x) (k : Nat) (hk : k < v.length)
    (hge : w.sum / 2 ≤ (cumWeights v w).getD k 0)
    (hlt : ∀ j, j < k → (cumWeights v w).getD j 0 < w.sum / 2) :
    weighted_median v w = some ((sortedValues v).getD k 0) := by
  have hmem : ∀ a ∈ argsort v, a < w.length := fun a ha => by
    rw [hlen]; exact mem_argsort_lt v ha
  have hmapM := mapM_get?_of_lt w (argsort v) hmem
  have hwperm_len : ((argsort v).map (fun a => w.getD a 0)).length = v.length := by
    simp [argsort_length]
  have hwperm_ne : (argsort v).map (fun a => w.getD a 0) ≠ [] := by
    intro hnil
    rw [hnil] at hwperm_len
    exact hne (List.eq_nil_of_length_eq_zero hwperm_len.symm)
  have hsum : ((argsort v).map (fun a => w.getD a 0)).sum = w.sum :=
    (weights_perm v w hlen).sum_eq
  have hwperm_nonneg : ∀ x ∈ (argsort v).map (fun a => w.getD a 0), 0 ≤ x := by
    intro x hx
    obtain ⟨a, ha, rfl⟩ := List.mem_map.mp hx
    rcases Nat.lt_or_ge a w.length with h' | h'
    · rw [List.getD_eq_getElem _ _ h']
      exact hw _ (List.getElem_mem h')
    · rw [List.getD_eq_default _ _ h']
  have hc_sorted := cumsum_pairwise _ hwperm_nonneg
  have hc_len : (cumsum ((argsort v).map (fun a => w.getD a 0))).length = v.length := by
    rw [cumsum_length, hwperm_len]
  have hhalf : (0.5 : ℚ) * w.sum = w.sum / 2 := by ring
  have hpos : searchsorted (cumsum ((argsort v).map (fun a => w.getD a 0)))
      (w.sum / 2) = k := by
    refine searchsorted_eq _ _ hc_sorted k (by rw [hc_len]; exact hk) ?_ ?_
    · exact hge
    · exact hlt
  have hik : k < (argsort v).length := by rw [argsort_length]; exact hk
  have hikv : (argsort v)[k] < v.length :=
    mem_argsort_lt v (List.getElem_mem hik)
  simp only [weighted_median]
  rw [hmapM]
  simp only [cumsum_getLast? _ hwperm_ne, hsum, hhalf, hpos,
    List.get?_eq_getElem?, List.getElem?_eq_getElem hik,
    List.getElem?_eq_getElem hikv]
  unfold sortedValues
  rw [List.getD_eq_getElem _ _ (by rw [List.length_map]; exact hik),
    List.getElem_map, List.getD_eq_getElem _ _ hikv]

theorem cumWeights_length (v w : List ℚ) : (cumWeights v w).length = v.length := by
  simp [cumWeights, cumsum_length, argsort_length]

theorem cumWeights_last (v w : List ℚ) (hne : v ≠ []) (hlen : w.length = v.length) :
    (cumWeights v w).getD (v.length - 1) 0 = w.sum := by
  have hn : 0 < v.length := List.length_pos.mpr hne
  unfold cumWeights
  rw [cumsum_getD _ _ (by rw [List.length_map, argsort_length]; omega)]
  have harg : (v.length - 1) + 1 = ((argsort v).map fun a => w.getD a 0).length := by
    rw [List.length_map, argsort_length]; omega
  rw [harg, List.take_length]
  exact (weights_perm v w hlen).sum_eq

/-- There is a first position where the cumulative weight reaches half the
total weight, and `weighted_median` returns the value there. -/
theorem exists_first_crossing (v w : List ℚ) (hne : v ≠ [])
    (hlen : w.length = v.length) (hw : ∀ x ∈ w, 0 ≤ x) :
    ∃ k, k < v.length ∧
      weighted_median v w = some ((sortedValues v).getD k 0) ∧
      w.sum / 2 ≤ (cumWeights v w).getD k 0 ∧
      ∀ j, j < k → (cumWeights v w).getD j 0 < w.sum / 2 := by
  have hn : 0 < v.length := List.length_pos.mpr hne
  have h0 : 0 ≤ w.sum := List.sum_nonneg hw
  have hP : ∃ i, w.sum / 2 ≤ (cumWeights v w).getD i 0 :=
    ⟨v.length - 1, by rw [cumWeights_last v w hne hlen]; linarith⟩
  have hkP := Nat.find_spec hP
  have hk : Nat.find hP < v.length :=
    lt_of_le_of_lt (Nat.find_min' hP
      (by rw [cumWeights_last v w hne hlen]; linarith)) (by omega)
  have hlt : ∀ j, j < Nat.find hP → (cumWeights v w).getD j 0 < w.sum / 2 :=
    fun j hj => not_le.mp (Nat.find_min hP hj)
  exact ⟨Nat.find hP, hk, wm_eq_get v w hne hlen hw _ hk hkP hlt, hkP, hlt⟩

/-- C1: for a non-empty value list and an equal-length list of
non-negative weights with positive total weight, `weighted_median` returns
the value at the first position, in ascending value order, at which the
cumulative weight sum reaches half the total weight. -/
theorem weighted_median_first_crossing (v w : List ℚ) (hne : v ≠ [])
    (hlen : w.length = v.length) (hw : ∀ x ∈ w, 0 ≤ x) (_hpos : 0 < w.sum) :
    ∃ k, k < v.length ∧
      weighted_median v w = some ((sortedValues v).getD k 0) ∧
      (sortedValues v).Pairwise (· ≤ ·) ∧
      (sortedValues v).Perm v ∧
      w.sum / 2 ≤ (cumWeights v w).getD k 0 ∧
      ∀ j, j < k → (cumWeights v w).getD j 0 < w.sum / 2 := by
  obtain ⟨k, hk, heq, hge, hlt⟩ := exists_first_crossing v w hne hlen hw
  exact ⟨k, hk, heq, sortedValues_pairwise v, sortedValues_perm v, hge, hlt⟩

/-- Witness for C1 at `values = [3,1,2]`, `weights = [1,2,1]`. -/
theorem weighted_median_first_crossing_witness :
    (([3, 1, 2] : List ℚ) ≠ [] ∧ ([1, 2, 1] : List ℚ).length = ([3, 1, 2] : List ℚ).length ∧
      (∀ x ∈ ([1, 2, 1] : List ℚ), 0 ≤ x) ∧ 0 < ([1, 2, 1] : List ℚ).sum) ∧
    (∃ k, k < ([3, 1, 2] : List ℚ).length ∧
      weighted_median [3, 1, 2] [1, 2, 1] = some ((sortedValues [3, 1, 2]).getD k 0) ∧
      (sortedValues [3, 1, 2]).Pairwise (· ≤ ·) ∧
      (sortedValues [3, 1, 2]).Perm [3, 1, 2] ∧
      ([1, 2, 1] : List ℚ).sum / 2 ≤ (cumWeights [3, 1, 2] [1, 2, 1]).getD k 0 ∧
      ∀ j, j < k → (cumWeights [3, 1, 2] [1, 2, 1]).getD j 0 < ([1, 2, 1] : List ℚ).sum / 2) :=
  ⟨⟨by simp, rfl, by norm_num, by norm_num [List.sum_cons]⟩,
    weighted_median_first_crossing [3, 1, 2] [1, 2, 1] (by simp) rfl
      (by norm_num) (by norm_num [List.sum_cons])⟩

/-- C7: a single-element value list yields that element for any
(non-negative, per the stated input contract) weight. -/
theorem weighted_median_single (a wt : ℚ) (hw : 0 ≤ wt) :
    weighted_median [a] [wt] = some a := by
  have hcw : (cumWeights [a] [wt]).getD 0 0 = wt := by
    simp [cumWeights, argsort, List.insertionSort, List.orderedInsert, cumsum]
  have hnn : ∀ x ∈ ([wt] : List ℚ), 0 ≤ x := by
    intro x hx
    simp at hx
    subst hx
    exact hw
  have hge : ([wt] : List ℚ).sum / 2 ≤ (cumWeights [a] [wt]).getD 0 0 := by
    rw [hcw]
    simp only [List.sum_cons, List.sum_nil, add_zero]
    linarith
  have h := wm_eq_get [a] [wt] (by simp) rfl hnn 0 (by simp) hge
    (fun j hj => absurd hj (Nat.not_lt_zero j))
  simpa [sortedValues, argsort, List.insertionSort, List.orderedInsert] using h

/-- Witness for C7 at `weighted_median([5], [0.3]) == 5`. -/
theorem weighted_median_single_witness :
    (0 : ℚ) ≤ 3 / 10 ∧ weighted_median [5] [3 / 10] = some 5 :=
  ⟨by norm_num, weighted_median_single 5 (3 / 10) (by norm_num)⟩

/-- C9: `weighted_median` is deterministic — equal value and weight
sequences give equal results. -/
theorem weighted_median_deterministic (v₁ w₁ v₂ w₂ : List ℚ)
    (hv : v₁ = v₂) (hw : w₁ = w₂) :
    weighted_median v₁ w₁ = weighted_median v₂ w₂ := by
  rw [hv, hw]

/-- Witness for C9 at a concrete repeated call. -/
theorem weighted_median_deterministic_witness :
    weighted_median [1, 2, 3] [1, 0, 1] = weighted_median [1, 2, 3] [1, 0, 1] :=
  weighted_median_deterministic [1, 2, 3] [1, 0, 1] [1, 2, 3] [1, 0, 1] rfl rfl

/-- C10: for a non-empty value list and equal-length non-negative weights
(including all-zero weights), every internal index is in bounds — no
indexing failure occurs — and the result is an element of the value
list. -/
theorem weighted_median_safe (v w : List ℚ) (hne : v ≠ [])
    (hlen : w.length = v.length) (hw : ∀ x ∈ w, 0 ≤ x) :
    ∃ r, weighted_median v w = some r ∧ r ∈ v := by
  obtain ⟨k, hk, heq, -, -⟩ := exists_first_crossing v w hne hlen hw
  refine ⟨_, heq, ?_⟩
  have hks : k < (sortedValues v).length := by rw [sortedValues_length]; exact hk
  rw [List.getD_eq_getElem _ _ hks]
  exact (sortedValues_perm v).subset (List.getElem_mem hks)

/-- Witness for C10 at all-zero weights. -/
theorem weighted_median_safe_witness :
    (([4, 7, 7] : List ℚ) ≠ [] ∧ ([0, 0, 0] : List ℚ).length = ([4, 7, 7] : List ℚ).length ∧
      (∀ x ∈ ([0, 0, 0] : List ℚ), 0 ≤ x)) ∧
    ∃ r, weighted_median [4, 7, 7] [0, 0, 0] = some r ∧ r ∈ ([4, 7, 7] : List ℚ) :=
  ⟨⟨by simp, rfl, by norm_num⟩,
    weighted_median_safe [4, 7, 7] [0, 0, 0] (by simp) rfl (by norm_num)⟩

theorem pairwise_head_le (l : List ℚ) (hs : l.Pairwise (· ≤ ·)) {x : ℚ}
    (hx : x ∈ l) : l.getD 0 0 ≤ x := by
  obtain ⟨j, hj, rfl⟩ := List.mem_iff_getElem.mp hx
  rw [← List.getD_eq_getElem l 0 hj]
  exact pairwise_le_getD l hs (Nat.zero_le j) hj

/-- C2 counterexample: `weighted_median([1,2,3], [0,0,0])` does not fail;
it returns the value `1`. -/
theorem weighted_median_zero_counterexample :
    weighted_median [1, 2, 3] [0, 0, 0] = some 1 ∧
      weighted_median [1, 2, 3] [0, 0, 0] ≠ none := by
  have h : weighted_median [1, 2, 3] [0, 0, 0] = some 1 := by
    norm_num [weighted_median, argsort, cumsum, searchsorted, binsearchLeft,
      binsearchGo, List.insertionSort, List.orderedInsert, lexLe,
      List.mapM, List.mapM.loop]
  exact ⟨h, by rw [h]; simp⟩

/-- With all weights zero, `weighted_median` succeeds and returns the
smallest value: the cumulative sums are all `0`, so `searchsorted` with
key `0` returns position `0`. -/
theorem wm_zero_weight_min (v w : List ℚ) (hne : v ≠ [])
    (hlen : w.length = v.length) (hzero : ∀ x ∈ w, x = 0) :
    ∃ r, weighted_median v w = some r ∧ r ∈ v ∧ ∀ x ∈ v, r ≤ x := by
  have hn : 0 < v.length := List.length_pos.mpr hne
  have hw : ∀ x ∈ w, 0 ≤ x := fun x hx => le_of_eq (hzero x hx).symm
  have hsum : w.sum = 0 := List.sum_eq_zero hzero
  have hcw_len : 0 < (cumWeights v w).length := by rw [cumWeights_length]; exact hn
  have hge : w.sum / 2 ≤ (cumWeights v w).getD 0 0 := by
    rw [hsum, zero_div, List.getD_eq_getElem _ _ hcw_len]
    refine cumsum_nonneg _ ?_ _ (List.getElem_mem hcw_len)
    intro x hx
    obtain ⟨a, _, rfl⟩ := List.mem_map.mp hx
    rcases Nat.lt_or_ge a w.length with h' | h'
    · rw [List.getD_eq_getElem _ _ h']
      exact hw _ (List.getElem_mem h')
    · rw [List.getD_eq_default _ _ h']
  have heq := wm_eq_get v w hne hlen hw 0 hn hge
    (fun j hj => absurd hj (Nat.not_lt_zero j))
  refine ⟨_, heq, ?_, ?_⟩
  · have h0 : 0 < (sortedValues v).length := by rw [sortedValues_length]; exact hn
    rw [List.getD_eq_getElem _ _ h0]
    exact (sortedValues_perm v).subset (List.getElem_mem h0)
  · intro x hx
    exact pairwise_head_le _ (sortedValues_pairwise v) ((sortedValues_perm v).mem_iff.mpr hx)

/-- C2 amended: with all weights zero, `weighted_median` does not fail and
does not return garbage — it returns the smallest value. -/
theorem weighted_median_zero_weights (v w : List ℚ) (hne : v ≠ [])
    (hlen : w.length = v.length) (hzero : ∀ x ∈ w, x = 0) :
    ∃ r, weighted_median v w = some r ∧ r ∈ v ∧ ∀ x ∈ v, r ≤ x :=
  wm_zero_weight_min v w hne hlen hzero

/-- Witness for the amended C2 at `values = [1,2,3]`, `weights = [0,0,0]`. -/
theorem weighted_median_zero_weights_witness :
    (([1, 2, 3] : List ℚ) ≠ [] ∧ ([0, 0, 0] : List ℚ).length = ([1, 2, 3] : List ℚ).length ∧
      (∀ x ∈ ([0, 0, 0] : List ℚ), x = 0)) ∧
    ∃ r, weighted_median [1, 2, 3] [0, 0, 0] = some r ∧ r ∈ ([1, 2, 3] : List ℚ) ∧
      ∀ x ∈ ([1, 2, 3] : List ℚ), r ≤ x :=
  ⟨⟨by simp, rfl, by norm_num⟩,
    weighted_median_zero_weights [1, 2, 3] [0, 0, 0] (by simp) rfl (by norm_num)⟩

/-- C6: with all weights equal to the same positive constant,
`weighted_median` is the standard unweighted median with the fixed tie
rule "lower median": the value at (1-based) position `⌈n/2⌉` in ascending
order. -/
theorem weighted_median_const_weights (v : List ℚ) (cst : ℚ) (hne : v ≠ [])
    (hc : 0 < cst) :
    weighted_median v (List.replicate v.length cst) =
      some ((sortedValues v).getD ((v.length + 1) / 2 - 1) 0) := by
  set n := v.length with hn_def
  have hn : 0 < n := List.length_pos.mpr hne
  set k := (n + 1) / 2 - 1 with hk_def
  have hk1 : k + 1 = (n + 1) / 2 := by omega
  have hk : k < n := by omega
  have hlen : (List.replicate n cst).length = n := List.length_replicate n cst
  have hw : ∀ x ∈ List.replicate n cst, 0 ≤ x := by
    intro x hx
    rw [(List.mem_replicate.mp hx).2]
    exact hc.le
  have hsum : (List.replicate n cst).sum = (n : ℚ) * cst := by
    rw [List.sum_replicate, nsmul_eq_mul]
  have hmap : (argsort v).map (fun a => (List.replicate n cst).getD a 0)
      = List.replicate n cst := by
    have hcongr : (argsort v).map (fun a => (List.replicate n cst).getD a 0)
        = (argsort v).map (fun _ => cst) := by
      apply List.map_congr_left
      intro a ha
      have : a < n := mem_argsort_lt v ha
      rw [List.getD_eq_getElem _ _ (by rw [hlen]; exact this)]
      simp
    rw [hcongr, List.map_const', argsort_length]
  have hcw : ∀ j, j < n → (cumWeights v (List.replicate n cst)).getD j 0
      = ((j : ℚ) + 1) * cst := by
    intro j hj
    unfold cumWeights
    rw [hmap, cumsum_getD _ _ (by rw [hlen]; exact hj), List.take_replicate,
      Nat.min_eq_left (by omega), List.sum_replicate, nsmul_eq_mul]
    push_cast
    ring
  have hhalf_le : (n : ℚ) / 2 ≤ ((k : ℚ) + 1) := by
    have hnat : n ≤ 2 * (k + 1) := by omega
    have : (n : ℚ) ≤ 2 * ((k : ℚ) + 1) := by exact_mod_cast hnat
    linarith
  have hge : (List.replicate n cst).sum / 2
      ≤ (cumWeights v (List.replicate n cst)).getD k 0 := by
    rw [hsum, hcw k hk]
    calc (n : ℚ) * cst / 2 = ((n : ℚ) / 2) * cst := by ring
      _ ≤ ((k : ℚ) + 1) * cst := mul_le_mul_of_nonneg_right hhalf_le hc.le
  have hlt : ∀ j, j < k → (cumWeights v (List.replicate n cst)).getD j 0
      < (List.replicate n cst).sum / 2 := by
    intro j hj
    rw [hsum, hcw j (by omega)]
    have hnat : 2 * (j + 1) < n := by omega
    have hq : 2 * ((j : ℚ) + 1) < (n : ℚ) := by exact_mod_cast hnat
    have : ((j : ℚ) + 1) < (n : ℚ) / 2 := by linarith
    calc ((j : ℚ) + 1) * cst < ((n : ℚ) / 2) * cst := mul_lt_mul_of_pos_right this hc
      _ = (n : ℚ) * cst / 2 := by ring
  exact wm_eq_get v (List.replicate n cst) hne hlen hw k hk hge hlt

/-- Witness for C6: `weighted_median([1,2,3,4], [1,1,1,1]) == 2`, the
lower median, consistently. -/
theorem weighted_median_const_weights_witness :
    (([1, 2, 3, 4] : List ℚ) ≠ [] ∧ (0 : ℚ) < 1) ∧
    weighted_median [1, 2, 3, 4] (List.replicate ([1, 2, 3, 4] : List ℚ).length 1) =
      some ((sortedValues [1, 2, 3, 4]).getD ((([1, 2, 3, 4] : List ℚ).length + 1) / 2 - 1) 0) ∧
    (sortedValues [1, 2, 3, 4]).getD ((([1, 2, 3, 4] : List ℚ).length + 1) / 2 - 1) 0 = 2 :=
  ⟨⟨by simp, by norm_num⟩,
    weighted_median_const_weights [1, 2, 3, 4] 1 (by simp) (by norm_num),
    by decide⟩

/-! ### The comparison collaborators and the weighted-median similarity
helpers (`helpers.py`, lines 210–237).

The `EmbeddingComparison` class itself lives outside the visible sources
(`embsuivi.embeddings_compare`); its interface is modelled from the
spec. -/

/-- Modelled from the spec: the embedding-store collaborator.  Missing
from the sources is the `Embedding` class; per the spec it optionally
carries a `key → frequency` table (`is_frequency_set()` reports whether it
does). -/
structure Embedding where
  freqs : Option (List (String × ℚ))

/-- Modelled from the spec: `is_frequency_set() -> bool`. -/
def Embedding.is_frequency_set (e : Embedding) : Bool :=
  e.freqs.isSome

/-- Modelled from the spec: `get_frequency(key) -> float in [0,1] or 0`;
a missing frequency (no table, or the key absent) is `0`, not an
error. -/
def Embedding.get_frequency (e : Embedding) (k : String) : ℚ :=
  match e.freqs with
  | none => 0
  | some t => (t.lookup k).getD 0

/-- Modelled from the spec: an `EmbeddingComparison` holds exactly two
embeddings plus the memoized similarity mappings (unordered and ordered),
keyed by the sampled common key set.  A Python `dict` iterates its keys in
mapping order, so each mapping is a key-ordered association list, and the
`…_values` sequences are aligned with that key order. -/
structure EmbeddingComparison where
  emb1 : Embedding
  emb2 : Embedding
  neighborhoods_similarities : List (String × ℚ)
  neighborhoods_ordered_similarities : List (String × ℚ)

/-- `comparison.embeddings` (the two embeddings, in order). -/
def EmbeddingComparison.embeddings (c : EmbeddingComparison) :
    Embedding × Embedding :=
  (c.emb1, c.emb2)

/-- Modelled from the spec: the value sequence aligned with the key order
of `neighborhoods_similarities`. -/
def EmbeddingComparison.neighborhoods_similarities_values
    (c : EmbeddingComparison) : List ℚ :=
  c.neighborhoods_similarities.map Prod.snd

/-- Modelled from the spec: the value sequence aligned with the key order
of `neighborhoods_ordered_similarities`. -/
def EmbeddingComparison.neighborhoods_ordered_similarities_values
    (c : EmbeddingComparison) : List ℚ :=
  c.neighborhoods_ordered_similarities.map Prod.snd

/-- Transcription of `compute_weighted_median_similarity` (`helpers.py`,
lines 210–221): per-key frequencies of each embedding over the similarity
mapping's keys, averaged elementwise, fed to `weighted_median` together
with the aligned similarity values. -/
def compute_weighted_median_similarity (c : EmbeddingComparison) : Option ℚ :=
  let emb1 := c.embeddings.1
  let emb2 := c.embeddings.2
  let freqs_1 := c.neighborhoods_similarities.map (fun kv => emb1.get_frequency kv.1)
  let freqs_2 := c.neighborhoods_similarities.map (fun kv => emb2.get_frequency kv.1)
  let freqs_mean := List.zipWith (fun a b => (a + b) / 2) freqs_1 freqs_2
  weighted_median c.neighborhoods_similarities_values freqs_mean

/-- Transcription of `compute_weighted_median_ordered_similarity`
(`helpers.py`, lines 224–237). -/
def compute_weighted_median_ordered_similarity (c : EmbeddingComparison) : Option ℚ :=
  let emb1 := c.embeddings.1
  let emb2 := c.embeddings.2
  let freqs_1 := c.neighborhoods_ordered_similarities.map (fun kv => emb1.get_frequency kv.1)
  let freqs_2 := c.neighborhoods_ordered_similarities.map (fun kv => emb2.get_frequency kv.1)
  let freqs_mean := List.zipWith (fun a b => (a + b) / 2) freqs_1 freqs_2
  weighted_median c.neighborhoods_ordered_similarities_values freqs_mean

/-- The spec's description of the computation (for the refinement claim
C4): for each key of the (ordered) similarity mapping, in mapping order,
the weight is the arithmetic mean of the two embeddings' frequencies for
that key; the aligned value and weight arrays go to `weighted_median`. -/
def specWeightedMedianSimilarity (c : EmbeddingComparison) : Option ℚ :=
  weighted_median (c.neighborhoods_similarities.map Prod.snd)
    (c.neighborhoods_similarities.map
      (fun kv => (c.emb1.get_frequency kv.1 + c.emb2.get_frequency kv.1) / 2))

/-- Spec-side description of the ordered variant; see
`specWeightedMedianSimilarity`. -/
def specWeightedMedianOrderedSimilarity (c : EmbeddingComparison) : Option ℚ :=
  weighted_median (c.neighborhoods_ordered_similarities.map Prod.snd)
    (c.neighborhoods_ordered_similarities.map
      (fun kv => (c.emb1.get_frequency kv.1 + c.emb2.get_frequency kv.1) / 2))

/-- C4: both weighted-median similarity helpers compute, for each key of
the corresponding similarity mapping in mapping order, the arithmetic
mean of the two embeddings' frequencies as weight, and apply
`weighted_median` to the aligned value and weight arrays. -/
theorem compute_weighted_median_similarity_spec (c : EmbeddingComparison) :
    compute_weighted_median_similarity c = specWeightedMedianSimilarity c ∧
    compute_weighted_median_ordered_similarity c = specWeightedMedianOrderedSimilarity c := by
  constructor
  · unfold compute_weighted_median_similarity specWeightedMedianSimilarity
    dsimp only
    rw [List.zipWith_map, List.zipWith_same]
    rfl
  · unfold compute_weighted_median_ordered_similarity specWeightedMedianOrderedSimilarity
    dsimp only
    rw [List.zipWith_map, List.zipWith_same]
    rfl

/-- C5 counterexample: a comparison whose embeddings both lack frequency
data but whose (legitimately possible, per the spec's EmptyIntersection
state) similarity mapping is empty makes
`compute_weighted_median_similarity` fail — `weighted_median` on empty
arrays raises (`c[-1]` on an empty cumulative-sum array). -/
theorem compute_wms_no_freq_counterexample :
    (EmbeddingComparison.mk ⟨none⟩ ⟨none⟩ [] []).emb1.is_frequency_set = false ∧
    (EmbeddingComparison.mk ⟨none⟩ ⟨none⟩ [] []).emb2.is_frequency_set = false ∧
    compute_weighted_median_similarity (EmbeddingComparison.mk ⟨none⟩ ⟨none⟩ [] []) = none := by
  refine ⟨rfl, rfl, rfl⟩

/-- C5 amended: for a comparison with a non-empty similarity mapping
whose embeddings both lack frequency data, every frequency is read as `0`
(never an error) and `compute_weighted_median_similarity` succeeds,
returning one of the similarity values. -/
theorem compute_wms_no_freq (c : EmbeddingComparison)
    (h1 : c.emb1.freqs = none) (h2 : c.emb2.freqs = none)
    (hne : c.neighborhoods_similarities ≠ []) :
    ∃ r, compute_weighted_median_similarity c = some r ∧
      r ∈ c.neighborhoods_similarities_values := by
  have hvals_ne : c.neighborhoods_similarities_values ≠ [] := by
    intro h
    exact hne (List.map_eq_nil_iff.mp h)
  have hweights : List.zipWith (fun a b => (a + b) / 2)
      (c.neighborhoods_similarities.map (fun kv => c.embeddings.1.get_frequency kv.1))
      (c.neighborhoods_similarities.map (fun kv => c.embeddings.2.get_frequency kv.1))
      = c.neighborhoods_similarities.map (fun _ => (0 : ℚ)) := by
    rw [List.zipWith_map, List.zipWith_same]
    apply List.map_congr_left
    intro kv _
    simp [EmbeddingComparison.embeddings, Embedding.get_frequency, h1, h2]
  have hlen : (c.neighborhoods_similarities.map (fun _ => (0 : ℚ))).length
      = c.neighborhoods_similarities_values.length := by
    simp [EmbeddingComparison.neighborhoods_similarities_values]
  have hzero : ∀ x ∈ c.neighborhoods_similarities.map (fun _ => (0 : ℚ)), x = 0 := by
    intro x hx
    obtain ⟨_, _, rfl⟩ := List.mem_map.mp hx
    rfl
  obtain ⟨r, hr, hmem, -⟩ := wm_zero_weight_min c.neighborhoods_similarities_values
    (c.neighborhoods_similarities.map (fun _ => (0 : ℚ))) hvals_ne hlen hzero
  refine ⟨r, ?_, hmem⟩
  unfold compute_weighted_median_similarity
  dsimp only
  rw [hweights]
  exact hr

/-- Witness for the amended C5 at a one-key comparison with no frequency
data on either side. -/
theorem compute_wms_no_freq_witness :
    ((EmbeddingComparison.mk ⟨none⟩ ⟨none⟩ [("a", 1 / 2)] [("a", 1 / 2)]).emb1.freqs = none ∧
      (EmbeddingComparison.mk ⟨none⟩ ⟨none⟩ [("a", 1 / 2)] [("a", 1 / 2)]).emb2.freqs = none ∧
      (EmbeddingComparison.mk ⟨none⟩ ⟨none⟩ [("a", 1 / 2)] [("a", 1 / 2)]).neighborhoods_similarities ≠ []) ∧
    ∃ r, compute_weighted_median_similarity
        (EmbeddingComparison.mk ⟨none⟩ ⟨none⟩ [("a", 1 / 2)] [("a", 1 / 2)]) = some r ∧
      r ∈ (EmbeddingComparison.mk ⟨none⟩ ⟨none⟩
        [("a", 1 / 2)] [("a", 1 / 2)]).neighborhoods_similarities_values :=
  ⟨⟨rfl, rfl, by simp⟩,
    compute_wms_no_freq (EmbeddingComparison.mk ⟨none⟩ ⟨none⟩ [("a", 1 / 2)] [("a", 1 / 2)])
      rfl rfl (by simp)⟩

/-! ### Advanced parameters (`helpers.py` lines 49–56, `app.py`
lines 79–100). -/

/-- Transcription of the `AdvancedParameters` class defaults
(`helpers.py`, lines 50–52). -/
structure AdvancedParameters where
  n_neighbors : Int := 25
  max_emb_size : Int := 10000
  min_frequency : ℚ := 0

/-- Transcription of `AdvancedParameters.__init__(**kwargs)`
(`helpers.py`, lines 54–56): every given keyword is stored as-is via
`setattr`; absent keywords keep the class defaults.  There is no
validation and no failure path. -/
def AdvancedParameters.init (n_neighbors : Option Int) (max_emb_size : Option Int)
    (min_frequency : Option ℚ) : AdvancedParameters :=
  { n_neighbors := n_neighbors.getD 25
    max_emb_size := max_emb_size.getD 10000
    min_frequency := min_frequency.getD 0 }

/-- Modelled from the spec: `st.number_input` (an external UI
collaborator) keeps the returned value within
`[min_value, max_value]`. -/
def number_input (min_value max_value value : Int) : Int :=
  max min_value (min max_value value)

/-- Transcription of `get_advanced_parameters` (`app.py`, lines 79–100):
two number inputs with widget bounds `1…1000` and `100…200000`; the pair
`(n_neighbors, max_emb_size)` is returned as-is (a namedtuple in the
source).  The bounds live in the widgets, not in any constructor. -/
def get_advanced_parameters (n_neighbors max_emb_size : Int) : Int × Int :=
  (number_input 1 1000 n_neighbors, number_input 100 200000 max_emb_size)

/-- C8 counterexample: constructing the advanced-parameters configuration
with a non-positive `n_neighbors` and a `max_emb_size` below `100` is not
rejected — the constructor succeeds and stores the values unchanged. -/
theorem advanced_parameters_counterexample :
    (AdvancedParameters.init (some 0) (some 50) none).n_neighbors = 0 ∧
    (AdvancedParameters.init (some 0) (some 50) none).max_emb_size = 50 :=
  ⟨rfl, rfl⟩

/-- C8 amended: the constructor performs no validation — any values are
accepted and stored unchanged (defaults `25`/`10000`/`0` otherwise); the
range enforcement happens only in the UI number-input widgets, whose
results always satisfy `n_neighbors ≥ 1` and `max_emb_size ≥ 100`. -/
theorem advanced_parameters_unvalidated (n m : Int) (f : ℚ) :
    (AdvancedParameters.init (some n) (some m) (some f)).n_neighbors = n ∧
    (AdvancedParameters.init (some n) (some m) (some f)).max_emb_size = m ∧
    (AdvancedParameters.init (some n) (some m) (some f)).min_frequency = f ∧
    (AdvancedParameters.init none none none).n_neighbors = 25 ∧
    (AdvancedParameters.init none none none).max_emb_size = 10000 ∧
    1 ≤ (get_advanced_parameters n m).1 ∧ (get_advanced_parameters n m).1 ≤ 1000 ∧
    100 ≤ (get_advanced_parameters n m).2 ∧ (get_advanced_parameters n m).2 ≤ 200000 := by
  refine ⟨rfl, rfl, rfl, rfl, rfl, ?_, ?_, ?_, ?_⟩ <;>
    simp [get_advanced_parameters, number_input]

/-! ### NumPy's actual `argsort` kind (introsort), transcribed from
`numpy/core/src/npysort/quicksort.cpp` (`aquicksort_`, with
`SMALL_QUICKSORT = 15`) and `heapsort.cpp` (`aheapsort_`).

`weighted_median` calls `np.argsort(values)` with the default
`kind='quicksort'`; the spec asserts the sort is stable.  The
transcription below settles that assertion.  `tosort` is a `List Nat`;
the value comparisons `Tag::less` are `<` on the modelled values (the
NaN-aware branch is irrelevant over `ℚ`).  Every C loop is transcribed
with enough fuel — each bound is reached strictly before the fuel runs
out on the inputs considered. -/

/-- Read `tosort[i]`. -/
def lget (t : List Nat) (i : Nat) : Nat :=
  t.getD i 0

/-- `std::swap(tosort[a], tosort[b])`. -/
def lswap (t : List Nat) (a b : Nat) : List Nat :=
  (t.set a (lget t b)).set b (lget t a)

/-- `npy_get_msb(num)` = ⌊log₂ num⌋, used for the introsort depth
limit. -/
def npyMsbGo : Nat → Nat → Nat
  | 0, _ => 0
  | fuel + 1, n => if 2 ≤ n then npyMsbGo fuel (n / 2) + 1 else 0

/-- See `npyMsbGo`. -/
def npyGetMsb (n : Nat) : Nat :=
  npyMsbGo n n

/-- The insertion-sort shift loop of `aquicksort_`:
`while (pj > pl && Tag::less(vp, v[*pk])) { *pj-- = *pk--; }`. -/
def aqsShiftGo (v : List ℚ) (vp : ℚ) (pl : Nat) : Nat → List Nat → Nat → List Nat × Nat
  | 0, t, pj => (t, pj)
  | fuel + 1, t, pj =>
    if pl < pj ∧ vp < v.getD (t.getD (pj - 1) 0) 0 then
      aqsShiftGo v vp pl fuel (t.set pj (t.getD (pj - 1) 0)) (pj - 1)
    else (t, pj)

/-- The insertion-sort phase of `aquicksort_`:
`for (pi = pl + 1; pi <= pr; ++pi) { vi = *pi; vp = v[vi]; … *pj = vi; }`. -/
def aqsInsLoop (v : List ℚ) (pl pr : Nat) : Nat → Nat → List Nat → List Nat
  | 0, _, t => t
  | fuel + 1, pi, t =>
    if pi ≤ pr then
      aqsInsLoop v pl pr fuel (pi + 1)
        ((aqsShiftGo v (v.getD (t.getD pi 0) 0) pl pi t pi).1.set
          (aqsShiftGo v (v.getD (t.getD pi 0) 0) pl pi t pi).2 (t.getD pi 0))
    else t

/-- `do { ++pi; } while (Tag::less(v[*pi], vp));` of the partition. -/
def aqsScanUp (v : List ℚ) (t : List Nat) (vp : ℚ) : Nat → Nat → Nat
  | 0, pi => pi + 1
  | fuel + 1, pi =>
    if v.getD (t.getD (pi + 1) 0) 0 < vp then aqsScanUp v t vp fuel (pi + 1)
    else pi + 1

/-- `do { --pj; } while (Tag::less(vp, v[*pj]));` of the partition. -/
def aqsScanDown (v : List ℚ) (t : List Nat) (vp : ℚ) : Nat → Nat → Nat
  | 0, pj => pj - 1
  | fuel + 1, pj =>
    if vp < v.getD (t.getD (pj - 1) 0) 0 then aqsScanDown v t vp fuel (pj - 1)
    else pj - 1

/-- The partition swap loop of `aquicksort_`. -/
def aqsPartLoop (v : List ℚ) (vp : ℚ) : Nat → List Nat → Nat → Nat → List Nat × Nat
  | 0, t, pi, _ => (t, pi)
  | fuel + 1, t, pi, pj =>
    if aqsScanDown v t vp t.length pj ≤ aqsScanUp v t vp t.length pi then
      (t, aqsScanUp v t vp t.length pi)
    else
      aqsPartLoop v vp fuel
        (lswap t (aqsScanUp v t vp t.length pi) (aqsScanDown v t vp t.length pj))
        (aqsScanUp v t vp t.length pi) (aqsScanDown v t vp t.length pj)

/-- One full partition step of `aquicksort_`: median-of-three pivot
selection, pivot parked at `pr - 1`, swap loop, pivot restored at the
split point.  Returns the array and the split index `pi`. -/
def aqsPartition (v : List ℚ) (t : List Nat) (pl pr : Nat) : List Nat × Nat :=
  let pm := pl + (pr - pl) / 2
  let t1 := if v.getD (lget t pm) 0 < v.getD (lget t pl) 0 then lswap t pm pl else t
  let t2 := if v.getD (lget t1 pr) 0 < v.getD (lget t1 pm) 0 then lswap t1 pr pm else t1
  let t3 := if v.getD (lget t2 pm) 0 < v.getD (lget t2 pl) 0 then lswap t2 pm pl else t2
  let vp := v.getD (lget t3 pm) 0
  let t4 := lswap t3 pm (pr - 1)
  let s := aqsPartLoop v vp (pr - pl + 1) t4 pl (pr - 1)
  (lswap s.1 s.2 (pr - 1), s.2)

/-- `tosort[base + i - 1]`: the one-based heap access `a[i]` of
`aheapsort_`, where `a = tosort - 1` and `tosort` points at `pl`. -/
def heapGet (t : List Nat) (base i : Nat) : Nat :=
  t.getD (base + i - 1) 0

/-- One-based heap write `a[i] = x`. -/
def heapSet (t : List Nat) (base i x : Nat) : List Nat :=
  t.set (base + i - 1) x

/-- The sift-down inner loop of `aheapsort_` (both phases share it). -/
def aqsSiftGo (v : List ℚ) (base : Nat) (tmp : Nat) (n : Nat) :
    Nat → List Nat → Nat → Nat → List Nat × Nat
  | 0, t, i, _ => (t, i)
  | fuel + 1, t, i, j =>
    if j ≤ n then
      if v.getD tmp 0 <
          v.getD (heapGet t base (if j < n ∧ v.getD (heapGet t base j) 0 <
            v.getD (heapGet t base (j + 1)) 0 then j + 1 else j)) 0 then
        aqsSiftGo v base tmp n fuel
          (heapSet t base i (heapGet t base (if j < n ∧ v.getD (heapGet t base j) 0 <
            v.getD (heapGet t base (j + 1)) 0 then j + 1 else j)))
          (if j < n ∧ v.getD (heapGet t base j) 0 <
            v.getD (heapGet t base (j + 1)) 0 then j + 1 else j)
          ((if j < n ∧ v.getD (heapGet t base j) 0 <
            v.getD (heapGet t base (j + 1)) 0 then j + 1 else j) * 2)
      else (t, i)
    else (t, i)

/-- The heapify phase of `aheapsort_`: `for (l = n >> 1; l > 0; --l)`. -/
def aqsHeapifyGo (v : List ℚ) (base n : Nat) : Nat → List Nat → Nat → List Nat
  | 0, t, _ => t
  | fuel + 1, t, l =>
    if 0 < l then
      aqsHeapifyGo v base n fuel
        ((aqsSiftGo v base (heapGet t base l) n (n + 1) t l (l * 2)).1.set
          (base + (aqsSiftGo v base (heapGet t base l) n (n + 1) t l (l * 2)).2 - 1)
          (heapGet t base l))
        (l - 1)
    else t

/-- The extraction phase of `aheapsort_`: `for (; n > 1;)`. -/
def aqsExtractGo (v : List ℚ) (base : Nat) : Nat → List Nat → Nat → List Nat
  | 0, t, _ => t
  | fuel + 1, t, n =>
    if 1 < n then
      aqsExtractGo v base fuel
        ((aqsSiftGo v base (heapGet t base n) (n - 1) n
            (heapSet t base n (heapGet t base 1)) 1 2).1.set
          (base + (aqsSiftGo v base (heapGet t base n) (n - 1) n
            (heapSet t base n (heapGet t base 1)) 1 2).2 - 1)
          (heapGet t base n))
        (n - 1)
    else t

/-- `aheapsort_(vv, pl, num)` on the slice starting at `pl`. -/
def aheapsortSlice (v : List ℚ) (t : List Nat) (pl num : Nat) : List Nat :=
  aqsExtractGo v pl num (aqsHeapifyGo v pl num (num / 2 + 1) t (num / 2)) num

/-- The outer loop of `aquicksort_` with its explicit segment stack and
introsort depth limit (`if (depth_limit-- < 0) { aheapsort_; goto
stack_pop; }`). -/
def aqsOuter (v : List ℚ) : Nat → List Nat → List (Nat × Nat) → Nat → Nat → Int → List Nat
  | 0, t, _, _, _, _ => t
  | fuel + 1, t, stack, pl, pr, depthLimit =>
    if 15 < pr - pl then
      if depthLimit < 0 then
        match aheapsortSlice v t pl (pr - pl + 1), stack with
        | t', [] => t'
        | t', (pl', pr') :: s => aqsOuter v fuel t' s pl' pr' (depthLimit - 1)
      else
        if (aqsPartition v t pl pr).2 - pl < pr - (aqsPartition v t pl pr).2 then
          aqsOuter v fuel (aqsPartition v t pl pr).1
            (((aqsPartition v t pl pr).2 + 1, pr) :: stack)
            pl ((aqsPartition v t pl pr).2 - 1) (depthLimit - 1)
        else
          aqsOuter v fuel (aqsPartition v t pl pr).1
            ((pl, (aqsPartition v t pl pr).2 - 1) :: stack)
            ((aqsPartition v t pl pr).2 + 1) pr (depthLimit - 1)
    else
      match aqsInsLoop v pl pr (pr + 1) (pl + 1) t, stack with
      | t', [] => t'
      | t', (pl', pr') :: s => aqsOuter v fuel t' s pl' pr' depthLimit

/-- `np.argsort(values, kind='quicksort')` as NumPy implements it:
introsort over the index array `[0, …, num-1]`. -/
def npArgsort (v : List ℚ) : List Nat :=
  aqsOuter v (4 * v.length + 4) (List.range v.length) [] 0 (v.length - 1)
    (2 * npyGetMsb v.length)

/-! ### Stability analysis of the transcription -/

theorem set_append_cons {α : Type} (A : List α) (d x : α) (B : List α) :
    (A ++ d :: B).set A.length x = A ++ x :: B := by
  induction A with
  | nil => rfl
  | cons a A ih => simp [List.set, ih]

theorem getD_append_len {α : Type} (A : List α) (d e : α) (B : List α) :
    (A ++ d :: B).getD A.length e = d := by
  induction A with
  | nil => rfl
  | cons a A ih => simpa using ih

theorem getD_append_lt {α : Type} (A B : List α) (e : α) (i : Nat)
    (h : i < A.length) : (A ++ B).getD i e = A.getD i e := by
  rw [List.getD_eq_getElem _ _ (by rw [List.length_append]; omega),
    List.getD_eq_getElem _ _ h]
  exact List.getElem_append_left h

theorem getD_take_lt {α : Type} (S : List α) (e : α) (m i : Nat)
    (h : i < m) (h2 : m ≤ S.length) : (S.take m).getD i e = S.getD i e := by
  rw [List.getD_eq_getElem _ _ (by rw [List.length_take]; omega),
    List.getD_eq_getElem _ _ (by omega), List.getElem_take]

/-- What the insertion-sort shift loop does, starting from a layout
`S.take pj ++ d :: (S.drop pj ++ rest)` with the hole at position `pj`:
it slides the hole left past every entry whose value exceeds `vp` and
stops at the first entry (scanning right-to-left) whose value does
not. -/
theorem aqsShiftGo_spec (v : List ℚ) (vp : ℚ) :
    ∀ fuel (S : List Nat) (pj : Nat) (d : Nat) (rest : List Nat),
      pj ≤ S.length → pj ≤ fuel →
      ∃ j d', j ≤ pj ∧
        aqsShiftGo v vp 0 fuel (S.take pj ++ d :: (S.drop pj ++ rest)) pj
          = (S.take j ++ d' :: (S.drop j ++ rest), j) ∧
        (∀ idx, j ≤ idx → idx < pj → vp < v.getD (S.getD idx 0) 0) ∧
        (j = 0 ∨ ¬ vp < v.getD (S.getD (j - 1) 0) 0) := by
  intro fuel
  induction fuel with
  | zero =>
    intro S pj d rest hpj hfuel
    have h0 : pj = 0 := by omega
    subst h0
    exact ⟨0, d, le_refl 0, rfl, by omega, Or.inl rfl⟩
  | succ fuel ih =>
    intro S pj d rest hpj hfuel
    cases pj with
    | zero =>
      refine ⟨0, d, le_refl 0, ?_, by omega, Or.inl rfl⟩
      simp [aqsShiftGo]
    | succ pj' =>
      have hjlt : pj' < S.length := by omega
      have htake_len : (S.take (pj' + 1)).length = pj' + 1 := by
        rw [List.length_take]; omega
      have hgetD : (S.take (pj' + 1) ++ d :: (S.drop (pj' + 1) ++ rest)).getD pj' 0
          = S.getD pj' 0 := by
        rw [getD_append_lt _ _ _ _ (by omega), getD_take_lt _ _ _ _ (by omega) hpj]
      by_cases hc : vp < v.getD (S.getD pj' 0) 0
      · have hset : (S.take (pj' + 1) ++ d :: (S.drop (pj' + 1) ++ rest)).set (pj' + 1)
            (S.getD pj' 0) = S.take pj' ++ (S.getD pj' 0) :: (S.drop pj' ++ rest) := by
          have h1 : (S.take (pj' + 1) ++ d :: (S.drop (pj' + 1) ++ rest)).set
              (S.take (pj' + 1)).length (S.getD pj' 0)
              = S.take (pj' + 1) ++ (S.getD pj' 0) :: (S.drop (pj' + 1) ++ rest) :=
            set_append_cons _ _ _ _
          rw [htake_len] at h1
          rw [h1, List.take_succ, List.getElem?_eq_getElem hjlt]
          rw [List.drop_eq_getElem_cons hjlt, ← List.getD_eq_getElem S 0 hjlt]
          simp
        obtain ⟨j, d'', hj, heq, hcond2, hstop⟩ := ih S pj' (S.getD pj' 0) rest
          (by omega) (by omega)
        refine ⟨j, d'', by omega, ?_, ?_, hstop⟩
        · simp only [aqsShiftGo]
          rw [if_pos ⟨Nat.succ_pos pj', by
            rw [show pj' + 1 - 1 = pj' from rfl, hgetD]; exact hc⟩]
          rw [show pj' + 1 - 1 = pj' from rfl, hgetD, hset]
          exact heq
        · intro idx h1 h2
          rcases Nat.lt_succ_iff_lt_or_eq.mp h2 with h3 | h3
          · exact hcond2 idx h1 h3
          · rw [h3]; exact hc
      · refine ⟨pj' + 1, d, le_refl _, ?_, by omega, Or.inr ?_⟩
        · simp only [aqsShiftGo]
          rw [if_neg]
          rintro ⟨-, hcc⟩
          rw [show pj' + 1 - 1 = pj' from rfl, hgetD] at hcc
          exact hc hcc
        · rw [show pj' + 1 - 1 = pj' from rfl]
          exact hc

/-- Inserting the new index `pi` at the position found by the shift loop
keeps the prefix sorted (by value, ties by original index) and extends
the permutation of the index range by one. -/
theorem sorted_insert_mid (v : List ℚ) (S : List Nat) (pi j : Nat)
    (hS : S.length = pi) (hperm : S.Perm (List.range pi))
    (hsorted : List.Sorted (lexLe v) S) (hj : j ≤ pi)
    (hgt : ∀ idx, j ≤ idx → idx < pi → v.getD pi 0 < v.getD (S.getD idx 0) 0)
    (hstop : j = 0 ∨ ¬ v.getD pi 0 < v.getD (S.getD (j - 1) 0) 0) :
    List.Sorted (lexLe v) (S.take j ++ pi :: S.drop j) ∧
      (S.take j ++ pi :: S.drop j).Perm (List.range (pi + 1)) ∧
      (S.take j ++ pi :: S.drop j).length = pi + 1 := by
  have hmemS : ∀ a ∈ S, a < pi := fun a ha =>
    List.mem_range.mp (hperm.mem_iff.mp ha)
  have hp1 : (S.take j ++ pi :: S.drop j).Perm (pi :: S) := by
    have h := @List.perm_middle Nat pi (S.take j) (S.drop j)
    rwa [List.take_append_drop] at h
  have hp2 : (pi :: List.range pi).Perm (List.range (pi + 1)) := by
    rw [List.range_succ]
    simpa using (@List.perm_middle Nat pi (List.range pi) []).symm
  have hp : (S.take j ++ pi :: S.drop j).Perm (List.range (pi + 1)) :=
    (hp1.trans (hperm.cons pi)).trans hp2
  refine ⟨?_, hp, by rw [hp.length_eq, List.length_range]⟩
  have hsplit : List.Pairwise (lexLe v) (S.take j ++ S.drop j) := by
    rw [List.take_append_drop]; exact hsorted
  have hcross := (List.pairwise_append.mp hsplit).2.2
  apply List.pairwise_append.mpr
  refine ⟨List.Pairwise.sublist (List.take_sublist j S) hsorted, ?_, ?_⟩
  · apply List.pairwise_cons.mpr
    refine ⟨?_, List.Pairwise.sublist (List.drop_sublist j S) hsorted⟩
    intro b hb
    obtain ⟨i, hm, hbe⟩ := List.mem_drop_iff_getElem.mp hb
    have hidx : j + i < pi := by omega
    have hlt := hgt (j + i) (by omega) hidx
    rw [List.getD_eq_getElem S 0 (by omega), hbe] at hlt
    exact Or.inl hlt
  · intro a ha b hb
    rcases List.mem_cons.mp hb with hbe | hb'
    · -- b is the newly inserted index pi
      rw [hbe]
      have hj0 : j ≠ 0 := by
        rintro rfl
        simp at ha
      have hnlt : v.getD (S.getD (j - 1) 0) 0 ≤ v.getD pi 0 := by
        rcases hstop with h0 | hn
        · exact absurd h0 hj0
        · exact not_lt.mp hn
      obtain ⟨ia, hia, hae⟩ := List.mem_iff_getElem.mp ha
      have hialt : ia < j := by rw [List.length_take] at hia; omega
      have hiaS : ia < S.length := by omega
      have haS : a = S.getD ia 0 := by
        rw [List.getD_eq_getElem S 0 hiaS, ← hae, List.getElem_take]
      have hva : v.getD a 0 ≤ v.getD (S.getD (j - 1) 0) 0 := by
        rcases Nat.lt_or_ge ia (j - 1) with hlt | hge
        · have hpair := List.pairwise_iff_getElem.mp hsorted ia (j - 1)
            hiaS (by omega) hlt
          rw [← List.getD_eq_getElem S 0 hiaS, ← List.getD_eq_getElem S 0 (by omega : j - 1 < S.length)] at hpair
          rcases hpair with h | ⟨h, -⟩
          · rw [haS]; exact h.le
          · rw [haS, h]
        · have : ia = j - 1 := by omega
          rw [haS, this]
      have hle : v.getD a 0 ≤ v.getD pi 0 := le_trans hva hnlt
      rcases lt_or_eq_of_le hle with h | h
      · exact Or.inl h
      · refine Or.inr ⟨h, ?_⟩
        have : a ∈ S := List.mem_of_mem_take ha
        exact (hmemS a this).le
    · exact hcross a ha b hb'

/-- Invariant of the insertion-sort phase: positions before `pi` hold a
sorted permutation of the already-processed indices, positions from `pi`
on are untouched; the loop extends this until the whole index range is
sorted by value with ties in original order. -/
theorem aqsInsLoop_spec (v : List ℚ) (n : Nat) :
    ∀ fuel pi (S : List Nat), S.length = pi → S.Perm (List.range pi) →
      List.Sorted (lexLe v) S → 1 ≤ pi → pi ≤ n → n - pi < fuel →
      ∃ T, aqsInsLoop v 0 (n - 1) fuel pi (S ++ List.range' pi (n - pi)) = T ∧
        T.Perm (List.range n) ∧ List.Sorted (lexLe v) T := by
  intro fuel
  induction fuel with
  | zero =>
    intro pi S _ _ _ _ _ hfuel
    omega
  | succ fuel ih =>
    intro pi S hS hperm hsorted hpi1 hpin hfuel
    by_cases hpieq : pi = n
    · refine ⟨S, ?_, by rw [← hpieq]; exact hperm, hsorted⟩
      simp only [aqsInsLoop]
      rw [if_neg (by omega : ¬ pi ≤ n - 1)]
      rw [hpieq]
      simp
    · have hpilt : pi < n := lt_of_le_of_ne hpin hpieq
      have hrange : List.range' pi (n - pi) = pi :: List.range' (pi + 1) (n - (pi + 1)) := by
        rw [show n - pi = (n - (pi + 1)) + 1 by omega, List.range'_succ]
      have hvi : (S ++ pi :: List.range' (pi + 1) (n - (pi + 1))).getD pi 0 = pi := by
        have h := getD_append_len S pi 0 (List.range' (pi + 1) (n - (pi + 1)))
        rwa [hS] at h
      have hshape : S ++ pi :: List.range' (pi + 1) (n - (pi + 1))
          = S.take pi ++ pi :: (S.drop pi ++ List.range' (pi + 1) (n - (pi + 1))) := by
        rw [← hS, List.take_length, List.drop_length]
        simp
      obtain ⟨j, d', hj, heq, hgt, hstop⟩ := aqsShiftGo_spec v (v.getD pi 0) pi S pi pi
        (List.range' (pi + 1) (n - (pi + 1))) (le_of_eq hS.symm) (le_refl pi)
      have hsetj : (S.take j ++ d' :: (S.drop j ++ List.range' (pi + 1) (n - (pi + 1)))).set j pi
          = S.take j ++ pi :: (S.drop j ++ List.range' (pi + 1) (n - (pi + 1))) := by
        have h1 := set_append_cons (S.take j) d' pi
          (S.drop j ++ List.range' (pi + 1) (n - (pi + 1)))
        rwa [List.length_take, Nat.min_eq_left (by omega)] at h1
      obtain ⟨hsorted', hperm', hlen'⟩ := sorted_insert_mid v S pi j hS hperm hsorted hj hgt hstop
      obtain ⟨T, hT, hTperm, hTsorted⟩ := ih (pi + 1) (S.take j ++ pi :: S.drop j)
        hlen' hperm' hsorted' (by omega) (by omega) (by omega)
      refine ⟨T, ?_, hTperm, hTsorted⟩
      simp only [aqsInsLoop]
      rw [if_pos (by omega : pi ≤ n - 1), hrange, hvi, hshape, heq, hsetj]
      rw [show S.take j ++ pi :: (S.drop j ++ List.range' (pi + 1) (n - (pi + 1)))
          = (S.take j ++ pi :: S.drop j) ++ List.range' (pi + 1) (n - (pi + 1)) by simp]
      exact hT

/-- For at most 16 elements (`SMALL_QUICKSORT + 1`), NumPy's argsort
never partitions: it runs the pure insertion sort, which coincides with
the stable sorting permutation. -/
theorem npArgsort_small (v : List ℚ) (h : v.length ≤ 16) :
    npArgsort v = argsort v := by
  rcases Nat.eq_zero_or_pos v.length with h0 | hpos
  · have hv : v = [] := List.eq_nil_of_length_eq_zero h0
    subst hv
    rfl
  · have heq : npArgsort v
        = aqsInsLoop v 0 (v.length - 1) (v.length - 1 + 1) (0 + 1) (List.range v.length) := by
      unfold npArgsort
      rw [show 4 * v.length + 4 = (4 * v.length + 3) + 1 from rfl]
      simp only [aqsOuter]
      rw [if_neg (by omega : ¬ 15 < v.length - 1 - 0)]
    have hstart : List.range v.length = [0] ++ List.range' 1 (v.length - 1) := by
      obtain ⟨m, hm⟩ : ∃ m, v.length = m + 1 := ⟨v.length - 1, by omega⟩
      rw [hm, List.range_eq_range', List.range'_succ]
      simp
    obtain ⟨T, hT, hTperm, hTsorted⟩ := aqsInsLoop_spec v v.length (v.length - 1 + 1) 1 [0]
      rfl (by decide) (by simp) (le_refl 1) hpos (by omega)
    have hnp : npArgsort v = T := by
      rw [heq, hstart]
      exact hT
    rw [hnp]
    exact List.eq_of_perm_of_sorted (hTperm.trans (argsort_perm_range v).symm)
      hTsorted (argsort_sorted v)

set_option maxRecDepth 4000 in
/-- C3 counterexample: the sort `weighted_median` uses — NumPy's default
argsort (quicksort kind) — is not stable.  On 17 equal values (one more
than the small-sort cutoff) the partition's swap loop reorders the tied
elements, while a sort that breaks ties by original relative order must
return the identity permutation, as the stable `argsort` model does. -/
theorem npArgsort_not_stable :
    npArgsort (List.replicate 17 0) ≠ List.range 17 ∧
      argsort (List.replicate 17 0) = List.range 17 := by
  constructor
  · decide
  · decide

/-- C3 amended: for inputs of at most 16 elements (`SMALL_QUICKSORT + 1`)
NumPy's argsort runs a pure insertion sort and ties in value are indeed
broken by the original relative order of the elements — the permutation
is the stable one, ascending in value with equal values in original
order.  For longer inputs the quicksort partition can reorder ties (see
the 17-element counterexample), though equal values still end up
adjacent, so the value `weighted_median` returns is unaffected. -/
theorem npArgsort_stable_small (v : List ℚ) (h : v.length ≤ 16) :
    npArgsort v = argsort v ∧ List.Pairwise (lexLe v) (npArgsort v) := by
  refine ⟨npArgsort_small v h, ?_⟩
  rw [npArgsort_small v h]
  exact argsort_sorted v

/-- Witness for the amended C3 at `values = [2,1,1]`, which contains a
tie: the tied elements keep their original relative order. -/
theorem npArgsort_stable_small_witness :
    (([2, 1, 1] : List ℚ).length ≤ 16) ∧
      (npArgsort [2, 1, 1] = argsort [2, 1, 1] ∧
        List.Pairwise (lexLe [2, 1, 1]) (npArgsort [2, 1, 1])) :=
  ⟨by decide, npArgsort_stable_small [2, 1, 1] (by decide)⟩

end Embcompare
